import Mathlib

/-!
Shallow embedding of `src/project/src/lib/perceptual-hash.ts`.

Modelling conventions, used throughout:
* JavaScript numbers are modelled by exact arithmetic over `ℕ`, `ℤ` and `ℚ`.
  The decimal constants of the source (`0.299`, `0.587`, `0.114`, thresholds)
  are modelled as the exact rationals they denote.
* A flat RGBA pixel array (`Uint8ClampedArray`) is modelled as a total
  function `ℕ → ℕ` from flat index to channel sample; each sample of a real
  buffer lies in `0..255`, stated as a hypothesis where a claim needs it.
* `parseInt` / `Number.toString(radix)` are modelled as exact radix
  conversions on `ℕ`.
* The transcendental constants of the source (`Math.cos` values and `1/√2`
  in the DCT, `Math.sqrt` in cosine similarity) are abstracted as parameters:
  every theorem below holds for all values of these parameters.
* `Infinity`, returned by `calculateHammingDistance` on a length mismatch,
  is modelled by `none` in `Option ℕ`.
-/

/-! ## Radix conversion (parseInt / toString(16) / toString(2) / padStart) -/

/-- The sixteen lowercase hexadecimal digit characters, in value order. -/
def hexDigitChars : List Char := "0123456789abcdef".toList

/-- The character for one hexadecimal digit value. -/
def hexChar (d : ℕ) : Char := hexDigitChars.getD d '0'

/-- The character for one binary digit value. -/
def binChar (d : ℕ) : Char := if d = 1 then '1' else '0'

/-- Digits of `n` in base 16, most significant first, with recursion fuel.
With fuel at least `n + 1` the result is the full digit string of `n`. -/
def toHexCore : ℕ → ℕ → List Char
  | 0, _ => []
  | fuel + 1, n => if n < 16 then [hexChar n] else toHexCore fuel (n / 16) ++ [hexChar (n % 16)]

/-- `n.toString(16)` of JavaScript: lowercase hex digits, `"0"` for zero. -/
def jsHexString (n : ℕ) : List Char := toHexCore (n + 1) n

/-- Digits of `n` in base 2, most significant first, with recursion fuel. -/
def toBinCore : ℕ → ℕ → List Char
  | 0, _ => []
  | fuel + 1, n => if n < 2 then [binChar n] else toBinCore fuel (n / 2) ++ [binChar (n % 2)]

/-- `n.toString(2)` of JavaScript. -/
def jsBinString (n : ℕ) : List Char := toBinCore (n + 1) n

/-- `String.prototype.padStart(len, c)` on a character list. -/
def padStart (len : ℕ) (c : Char) (l : List Char) : List Char :=
  List.replicate (len - l.length) c ++ l

/-- The numeric value of one hexadecimal digit character, by code point
(`0-9`, `a-f`, `A-F`); any other character maps to 0 (it never reaches the
accumulating fold because `parseInt` stops at the first non-digit). -/
def hexDigitVal (c : Char) : ℕ :=
  if 48 ≤ c.toNat ∧ c.toNat ≤ 57 then c.toNat - 48
  else if 97 ≤ c.toNat ∧ c.toNat ≤ 102 then c.toNat - 87
  else if 65 ≤ c.toNat ∧ c.toNat ≤ 70 then c.toNat - 55
  else 0

/-- Whether a character is a hexadecimal digit (`0-9`, `a-f`, `A-F`). -/
def isHexDigitChar (c : Char) : Bool :=
  (48 ≤ c.toNat && c.toNat ≤ 57) || (97 ≤ c.toNat && c.toNat ≤ 102)
    || (65 ≤ c.toNat && c.toNat ≤ 70)

/-- `parseInt(s, 16)`: the value of the longest hexadecimal-digit prefix. -/
def parseIntHex (s : String) : ℕ :=
  (s.toList.takeWhile isHexDigitChar).foldl (fun acc c => 16 * acc + hexDigitVal c) 0

/-- Whether a character is a binary digit. -/
def isBinDigitChar (c : Char) : Bool := c == '0' || c == '1'

/-- `parseInt(s, 2)` on a character list: the value of the longest
binary-digit prefix. -/
def parseIntBin (l : List Char) : ℕ :=
  (l.takeWhile isBinDigitChar).foldl (fun acc c => 2 * acc + (if c = '1' then 1 else 0)) 0

/-! ## calculateHammingDistance (perceptual-hash.ts lines 77-93)

`none` models the `Infinity` sentinel returned on a length mismatch. In the
equal-length branch the source expands both values to binary strings padded
to 64 characters and counts positions where the strings differ; an index past
the end of a string reads `undefined` in JavaScript, which differs from every
character — modelled by the `getD` default `'u'`, a character that is not a
binary digit. -/

def calculateHammingDistance (hash1 hash2 : String) : Option ℕ :=
  if hash1.length ≠ hash2.length then none
  else
    let bin1 := padStart 64 '0' (jsBinString (parseIntHex hash1))
    let bin2 := padStart 64 '0' (jsBinString (parseIntHex hash2))
    some ((List.range bin1.length).countP fun i => bin1.getD i 'u' != bin2.getD i 'u')

/-! ## cosineSimilarity (perceptual-hash.ts lines 477-492)

`Math.sqrt` is irrational, so it is abstracted as the parameter `sqrtF`;
the claims about this function hold for every choice of `sqrtF`. -/

def cosineSimilarity (sqrtF : ℚ → ℚ) (vec1 vec2 : List ℚ) : ℚ :=
  if vec1.length ≠ vec2.length then 0
  else
    let dotProduct := ((List.range vec1.length).map fun i => vec1.getD i 0 * vec2.getD i 0).sum
    let mag1 := ((List.range vec1.length).map fun i => vec1.getD i 0 * vec1.getD i 0).sum
    let mag2 := ((List.range vec1.length).map fun i => vec2.getD i 0 * vec2.getD i 0).sum
    let magnitude := sqrtF mag1 * sqrtF mag2
    if magnitude = 0 then 0 else dotProduct / magnitude

/-! ## computeDCTHash and generatePerceptualHash (perceptual-hash.ts lines 1-75)

The DCT basis values `Math.cos(((2x+1)·u·π)/(2·size))` are transcendental and
are abstracted as the parameter `cosA x u`; the normalisation constant
`1/Math.sqrt(2)` is abstracted as `c0`. Every theorem below holds for all
values of these parameters. The nested `for u / for v` loops that push onto
`dctCoeffs` become a `flatMap`/`map` over `List.range 8` in the same
row-major (u, v) order, and the `for x / for y` accumulation becomes the sum
of the same terms. -/

def dctCoeffList (c0 : ℚ) (cosA : ℕ → ℕ → ℚ) (grayscale : List ℚ) (size : ℕ) : List ℚ :=
  (List.range 8).flatMap fun u =>
    (List.range 8).map fun v =>
      let s := ((List.range size).flatMap fun x =>
        (List.range size).map fun y =>
          grayscale.getD (y * size + x) 0 * cosA x u * cosA y v).sum
      let cu := if u = 0 then c0 else 1
      let cv := if v = 0 then c0 else 1
      cu * cv * s / 4

/-- The 64-character binary string built inside `computeDCTHash`: bit `'1'`
exactly when the coefficient strictly exceeds
`dctCoeffs.slice(1).sort((a,b) => a-b)[Math.floor(dctCoeffs.length / 2)]`.
The ascending numeric sort is modelled by `List.insertionSort (· ≤ ·)`. -/
def dctBitChars (c0 : ℚ) (cosA : ℕ → ℕ → ℚ) (grayscale : List ℚ) (size : ℕ) : List Char :=
  let dctCoeffs := dctCoeffList c0 cosA grayscale size
  let medianCoeff :=
    (List.insertionSort (· ≤ ·) (dctCoeffs.drop 1)).getD (dctCoeffs.length / 2) 0
  dctCoeffs.map fun c => if medianCoeff < c then '1' else '0'

/-- `computeDCTHash`: the binary string packed as
`parseInt(hash, 2).toString(16).padStart(16, '0')`. -/
def computeDCTHash (c0 : ℚ) (cosA : ℕ → ℕ → ℚ) (grayscale : List ℚ) (size : ℕ) : String :=
  String.mk (padStart 16 '0' (jsHexString (parseIntBin (dctBitChars c0 cosA grayscale size))))

/-- The grayscale extraction of `generatePerceptualHash`: the 32×32 canvas
yields 1024 RGBA pixels, each mapped to `0.299·R + 0.587·G + 0.114·B`. -/
def grayscaleOfPixels (data : ℕ → ℕ) : List ℚ :=
  (List.range 1024).map fun i =>
    (299 * (data (4 * i) : ℚ) + 587 * (data (4 * i + 1) : ℚ)
      + 114 * (data (4 * i + 2) : ℚ)) / 1000

/-- `generatePerceptualHash`: every input image is drawn onto a 32×32 canvas
(the resampling itself is the browser's, outside the model), converted to
grayscale and hashed with `computeDCTHash(grayscale, 32)`. -/
def generatePerceptualHash (c0 : ℚ) (cosA : ℕ → ℕ → ℚ) (data : ℕ → ℕ) : String :=
  computeDCTHash c0 cosA (grayscaleOfPixels data) 32

/-! ## findSimilarArtwork and calculateConfidence (perceptual-hash.ts lines 321-353) -/

structure ArtworkRecord where
  id : String
  perceptual_hash : Option String
  title : String
  user_id : String

structure MatchResult where
  artwork : ArtworkRecord
  distance : Option ℕ
  confidence : ℚ

/-- `≤` on distances as JavaScript compares them, with `none` as `Infinity`:
`Infinity <= n` is false. -/
def distLe (a : Option ℕ) (b : Option ℕ) : Bool :=
  match a, b with
  | some x, some y => x ≤ y
  | some _, none => true
  | none, _ => false

/-- `<` on distances as JavaScript compares them, with `none` as `Infinity`. -/
def distLt (a : Option ℕ) (b : Option ℕ) : Bool :=
  match a, b with
  | some x, some y => decide (x < y)
  | some _, none => true
  | none, _ => false

/-- `calculateConfidence`: `clamp(1 - distance/64, 0, 1)`. For the
`Infinity` sentinel the similarity is `-Infinity` and the clamp yields 0,
modelled directly by the `none` branch. -/
def calculateConfidence : Option ℕ → ℚ
  | none => 0
  | some n => max 0 (min 1 (1 - (n : ℚ) / 64))

/-- One iteration of the `for (const artwork of allArtworks)` loop:
entries with no stored hash are skipped; an entry within the moderate
threshold 20 replaces the tracked closest match only when its distance is
strictly smaller. -/
def considerArtwork (q : String) (acc : Option MatchResult) (a : ArtworkRecord) :
    Option MatchResult :=
  match a.perceptual_hash with
  | none => acc
  | some hsh =>
    let d := calculateHammingDistance q hsh
    if distLe d (some 20) then
      match acc with
      | none => some ⟨a, d, calculateConfidence d⟩
      | some m => if distLt d m.distance then some ⟨a, d, calculateConfidence d⟩ else acc
    else acc

def findSimilarArtwork (q : String) (allArtworks : List ArtworkRecord) : Option MatchResult :=
  allArtworks.foldl (considerArtwork q) none

/-- The match one corpus entry contributes on its own: `none` when it has no
stored hash or its distance exceeds the moderate threshold. (Decomposition of
`considerArtwork` used to analyse the loop.) -/
def candidateFor (q : String) (a : ArtworkRecord) : Option MatchResult :=
  match a.perceptual_hash with
  | none => none
  | some hsh =>
    let d := calculateHammingDistance q hsh
    if distLe d (some 20) then some ⟨a, d, calculateConfidence d⟩ else none

/-- Keep the closer of two tracked matches, the left (earlier) one on ties:
exactly the loop's strict-< update rule. -/
def mergeClosest : Option MatchResult → Option MatchResult → Option MatchResult
  | none, b => b
  | some m, none => some m
  | some m, some m2 => if distLt m2.distance m.distance then some m2 else some m

/-- The closest admissible match of a corpus suffix, earlier entries
preferred on ties. -/
def bestOf (q : String) : List ArtworkRecord → Option MatchResult
  | [] => none
  | a :: rest => mergeClosest (candidateFor q a) (bestOf q rest)

/-! ## detectScreenshot (perceptual-hash.ts lines 96-291)

The pixel buffer is `data : ℕ → ℕ` (flat RGBA, index `(y·w + x)·4 + channel`).
The `Math.random()`-driven block positions of detection 5 are abstracted as a
parameter `rand : ℕ → ℕ × ℕ` giving the `(x, y)` corner of the `i`-th sampled
block; the theorems hold for every outcome of this sampling. The single
accumulating `detectionScore` is decomposed into one term per signal; the
terms are summed in the same order as the source's `+=` updates. -/

/-- Luminance `0.299·R + 0.587·G + 0.114·B` of pixel `(x, y)` in a buffer of
width `w`. -/
def grayAt (data : ℕ → ℕ) (w x y : ℕ) : ℚ :=
  (299 * (data ((y * w + x) * 4) : ℚ) + 587 * (data ((y * w + x) * 4 + 1) : ℚ)
    + 114 * (data ((y * w + x) * 4 + 2) : ℚ)) / 1000

/-- Detection 1: the nine enumerated common screen resolutions. -/
def screenResolutions : List (ℕ × ℕ) :=
  [(1920, 1080), (1440, 900), (1366, 768), (1024, 768), (2560, 1440),
    (3840, 2160), (1280, 720), (1600, 1200), (2880, 1800)]

def resolutionMatch (w h : ℕ) : Bool :=
  screenResolutions.any fun r => (w == r.1 && h == r.2) || (w == r.2 && h == r.1)

/-- Detection 1 contribution: `+0.20` once (the loop breaks on the first
match) when the dimensions, as given or swapped, equal a common resolution. -/
def resolutionScore (w h : ℕ) : ℚ := if resolutionMatch w h then 1/5 else 0

/-- Detection 2: the four common aspect ratios with their reason names. -/
def commonRatios : List (ℚ × String) :=
  [(16/9, "16:9"), (4/3, "4:3"), (3/2, "3:2"), (16/10, "16:10")]

/-- The first ratio within tolerance 0.01 of `width/height` (the source
breaks on the first match; only that ratio's name reaches the reasons). -/
def aspectMatch (w h : ℕ) : Option (ℚ × String) :=
  commonRatios.find? fun r => |(w : ℚ) / (h : ℚ) - r.1| < 1/100

/-- Detection 2 contribution: `+0.15` once when some common ratio matches. -/
def aspectScore (w h : ℕ) : ℚ := if (aspectMatch w h).isSome then 3/20 else 0

/-- The per-pixel RGB triples; the JavaScript `Set` of `"r,g,b"` keys holds
exactly the distinct triples. -/
def colorKeys (w h : ℕ) (data : ℕ → ℕ) : List (ℕ × ℕ × ℕ) :=
  (List.range (w * h)).map fun p => (data (4 * p), data (4 * p + 1), data (4 * p + 2))

def uniqueColorCount (w h : ℕ) (data : ℕ → ℕ) : ℕ := (colorKeys w h data).dedup.length

/-- `colorDiversity = uniqueColors.size / totalPixels`. (For a zero-pixel
buffer `getImageData` throws before this point, so `0/0` is unreachable.) -/
def colorDiversity (w h : ℕ) (data : ℕ → ℕ) : ℚ :=
  (uniqueColorCount w h data : ℚ) / ((w * h : ℕ) : ℚ)

/-- Detection 3 contribution: `+0.25` for diversity below 0.03, else `+0.05`
below 0.06, else nothing — a single `if / else if`, so the two can never
fire together. -/
def diversityScore (w h : ℕ) (data : ℕ → ℕ) : ℚ :=
  if colorDiversity w h data < 3/100 then 1/4
  else if colorDiversity w h data < 6/100 then 1/20
  else 0

/-- The stride-5 sample positions `1, 6, 11, …` strictly below `n - 1`. -/
def stride5 (n : ℕ) : List ℕ := (List.range ((n - 2 + 4) / 5)).map fun k => 1 + 5 * k

/-- Detection 4's sampled interior pixels: `y` outer loop, `x` inner, both
starting at 1 with stride 5 and stopping before the last row/column. -/
def sampledCoords (w h : ℕ) : List (ℕ × ℕ) :=
  (stride5 h).flatMap fun y => (stride5 w).map fun x => (x, y)

/-- `|Δ luminance to the right| + |Δ luminance below|` at `(x, y)`. -/
def edgeStrengthAt (data : ℕ → ℕ) (w x y : ℕ) : ℚ :=
  |grayAt data w x y - grayAt data w (x + 1) y| + |grayAt data w x y - grayAt data w x (y + 1)|

def totalEdgeStrength (w h : ℕ) (data : ℕ → ℕ) : ℚ :=
  ((sampledCoords w h).map fun c => edgeStrengthAt data w c.1 c.2).sum

/-- `avgEdgeStrength = totalEdgeStrength / (img.width * img.height / 25)` —
the divisor is `w·h/25`, which is not the number of sampled pixels. -/
def avgEdgeStrength (w h : ℕ) (data : ℕ → ℕ) : ℚ :=
  totalEdgeStrength w h data / ((w : ℚ) * (h : ℚ) / 25)

/-- Detection 4, first signal: `+0.15` when `avgEdgeStrength > 180`. -/
def crispEdgeScore (w h : ℕ) (data : ℕ → ℕ) : ℚ :=
  if 180 < avgEdgeStrength w h data then 3/20 else 0

/-- The number of sampled pixels whose edge strength exceeds 80. -/
def edgePixelCount (w h : ℕ) (data : ℕ → ℕ) : ℕ :=
  (sampledCoords w h).countP fun c => decide (80 < edgeStrengthAt data w c.1 c.2)

def edgePixelRatio (w h : ℕ) (data : ℕ → ℕ) : ℚ :=
  (edgePixelCount w h data : ℚ) / ((w : ℚ) * (h : ℚ) / 25)

/-- Detection 4, second signal: `+0.10` when `edgePixelRatio > 0.25`. -/
def sharpScore (w h : ℕ) (data : ℕ → ℕ) : ℚ :=
  if 1/4 < edgePixelRatio w h data then 1/10 else 0

/-- Mean over the sampled pixels, following the spec's words "mean of
(|Δluminance to right|+|Δluminance below|) sampled on a stride-5 grid".
Written for comparison with `avgEdgeStrength`, whose divisor is `w·h/25`
rather than the sample count. -/
def specEdgeMean (w h : ℕ) (data : ℕ → ℕ) : ℚ :=
  totalEdgeStrength w h data / ((sampledCoords w h).length : ℚ)

/-- The 8×8 in-block offsets of detection 5, `by` outer, `bx` inner. -/
def blockOffsets : List (ℕ × ℕ) :=
  (List.range 8).flatMap fun dy => (List.range 8).map fun dx => (dx, dy)

def blockMean (data : ℕ → ℕ) (w x y : ℕ) : ℚ :=
  ((blockOffsets).map fun c => grayAt data w (x + c.1) (y + c.2)).sum / 64

def blockVariance (data : ℕ → ℕ) (w x y : ℕ) : ℚ :=
  ((blockOffsets).map fun c => (grayAt data w (x + c.1) (y + c.2) - blockMean data w x y) ^ 2).sum

/-- How many of the 100 randomly placed blocks have `variance/64 < 5`. -/
def blockinessCount (w : ℕ) (data : ℕ → ℕ) (rand : ℕ → ℕ × ℕ) : ℕ :=
  (List.range 100).countP fun i =>
    decide (blockVariance data w (rand i).1 (rand i).2 / 64 < 5)

/-- Detection 5 contribution: `+0.10` when more than 35 of the 100 sampled
blocks are low-variance. -/
def blockinessScore (w : ℕ) (data : ℕ → ℕ) (rand : ℕ → ℕ × ℕ) : ℚ :=
  if 7/20 < (blockinessCount w data rand : ℚ) / 100 then 1/10 else 0

/-- The accumulated `detectionScore`, summed in source order. -/
def detectionScore (w h : ℕ) (data : ℕ → ℕ) (rand : ℕ → ℕ × ℕ) : ℚ :=
  resolutionScore w h + aspectScore w h + diversityScore w h data
    + crispEdgeScore w h data + sharpScore w h data + blockinessScore w data rand

/-- `Math.round` of JavaScript: round half away from zero is
`⌊q + 1/2⌋` for the non-negative values reaching it here. -/
def jsRound (q : ℚ) : ℤ := ⌊q + 1/2⌋

/-- The `reasons` array, pushed in source order. -/
def detectionReasons (w h : ℕ) (data : ℕ → ℕ) (rand : ℕ → ℕ × ℕ) : List String :=
  (if resolutionMatch w h then
    ["Exact screen resolution: " ++ toString w ++ "x" ++ toString h] else [])
  ++ (match aspectMatch w h with
      | some r => ["Standard " ++ r.2 ++ " aspect ratio"]
      | none => [])
  ++ (if colorDiversity w h data < 3/100 then
        ["Extremely low color diversity: only "
          ++ toString (jsRound (colorDiversity w h data * 100)) ++ "% unique colors"]
      else if colorDiversity w h data < 6/100 then ["Limited color palette detected"]
      else [])
  ++ (if 180 < avgEdgeStrength w h data then ["Unusually crisp edges (text/UI-like)"] else [])
  ++ (if 1/4 < edgePixelRatio w h data then ["High number of sharp transitions"] else [])
  ++ (if 7/20 < (blockinessCount w data rand : ℚ) / 100 then
        ["JPEG compression blockiness detected"] else [])

structure ScreenshotVerdict where
  isScreenshot : Bool
  confidence : ℚ
  reason : String
  deriving DecidableEq

/-- The ways `detectScreenshot` can be entered: the image fails to load
(`img.onerror`), the canvas yields no 2d context, the pixel analysis throws
(the `catch` branch), or a pixel buffer is analysed. -/
inductive DetectInput where
  | loadFailed
  | noContext
  | analysisThrew
  | pixels (w h : ℕ) (data : ℕ → ℕ) (rand : ℕ → ℕ × ℕ)

/-- `detectScreenshot`: always resolves with a verdict; every failure path
maps to the fixed fallback verdict of its handler. -/
def detectScreenshot : DetectInput → ScreenshotVerdict
  | .loadFailed => ⟨false, 0, "Unable to load image"⟩
  | .noContext => ⟨false, 0, "Unable to analyze"⟩
  | .analysisThrew => ⟨false, 0, "Error in analysis"⟩
  | .pixels w h data rand =>
    let score := detectionScore w h data rand
    let reasons := detectionReasons w h data rand
    ⟨decide (7/10 < score), min 1 score,
      if 0 < reasons.length then String.intercalate "; " reasons else "Unknown"⟩

/-! ## computeColorHistogram (perceptual-hash.ts lines 393-410)

The accumulator array `histogram` of 48 slots is modelled as a function
`ℕ → ℕ` from slot index to count (initially the constant 0, matching
`new Array(48).fill(0)`); `histogram[k]++` is `bumpAt · k`, and the final
array is read back as the 48 slots in order. The `for (i += 4)` walk over the
flat RGBA array visits the `length/4` pixel triples in order. -/

/-- `arr[k]++` on a slot-indexed count function. -/
def bumpAt (acc : ℕ → ℕ) (k : ℕ) : ℕ → ℕ := fun j => if j = k then acc j + 1 else acc j

/-- The `(r, g, b)` triples visited by the `i += 4` loop. -/
def pixelTriples (pixels : List ℕ) : List (ℕ × ℕ × ℕ) :=
  (List.range (pixels.length / 4)).map fun p =>
    (pixels.getD (4 * p) 0, pixels.getD (4 * p + 1) 0, pixels.getD (4 * p + 2) 0)

/-- One loop iteration: `histogram[r/16]++; histogram[16 + g/16]++;
histogram[32 + b/16]++` (binSize = 256/16 = 16). -/
def colorStep (acc : ℕ → ℕ) (t : ℕ × ℕ × ℕ) : ℕ → ℕ :=
  bumpAt (bumpAt (bumpAt acc (t.1 / 16)) (16 + t.2.1 / 16)) (32 + t.2.2 / 16)

def computeColorHistogram (pixels : List ℕ) : List ℚ :=
  let total : ℚ := (pixels.length : ℚ) / 4
  let counts := (pixelTriples pixels).foldl colorStep fun _ => 0
  (List.range 48).map fun j => (counts j : ℚ) / total

/-! ## computeEdgeFeatures (perceptual-hash.ts lines 412-445)

The Sobel magnitude `Math.sqrt(gx² + gy²)` is irrational, so the edge list
stores the squared magnitude `gx² + gy²` instead; this is lossless for
everything the function does with the magnitudes:
* `Math.max(...edges)` commutes with the square (√ is monotone on
  non-negative values), so the maximum squared magnitude is the square of
  the maximum magnitude;
* the bin `Math.min(9, Math.floor((edge / maxEdge) * 10))` satisfies
  `⌊10·√(e/emax)⌋ = ⌊√(100·e/emax)⌋ = Nat.sqrt ⌊100·e/emax⌋` for
  non-negative rationals, computed here exactly over the squares;
* when `maxEdge` is 0 every edge is 0 and `edge / maxEdge` is `0/0 = NaN` in
  JavaScript: `Math.min(9, Math.floor(NaN))` is `NaN`, and `histogram[NaN]++`
  touches none of the 10 array slots — modelled by the `none` bin. (For
  completeness `e ≠ 0, emax = 0` — unreachable for a true maximum — models
  `e/0 = Infinity`, whose bin is `min(9, Infinity) = 9`.) -/

def sobelXKernel : List ℤ := [-1, 0, 1, -2, 0, 2, -1, 0, 1]

def sobelYKernel : List ℤ := [-1, -2, -1, 0, 0, 0, 1, 2, 1]

/-- `gx` at interior pixel `(x, y)`: the 3×3 neighbourhood (offsets
`-1..1`, `ky` outer, `kx` inner as `kernelIdx = (ky+1)*3 + (kx+1)`) weighted
by the Sobel kernel. `x, y ≥ 1` at every use, so `x + dx - 1` is exact. -/
def sobelGx (data : ℕ → ℕ) (w x y : ℕ) : ℚ :=
  ((List.range 3).flatMap fun dy =>
    (List.range 3).map fun dx =>
      grayAt data w (x + dx - 1) (y + dy - 1) * ((sobelXKernel.getD (dy * 3 + dx) 0 : ℤ) : ℚ)).sum

def sobelGy (data : ℕ → ℕ) (w x y : ℕ) : ℚ :=
  ((List.range 3).flatMap fun dy =>
    (List.range 3).map fun dx =>
      grayAt data w (x + dx - 1) (y + dy - 1) * ((sobelYKernel.getD (dy * 3 + dx) 0 : ℤ) : ℚ)).sum

/-- The squared Sobel magnitude `gx² + gy²` at `(x, y)`. -/
def edgeSqAt (data : ℕ → ℕ) (w x y : ℕ) : ℚ :=
  sobelGx data w x y ^ 2 + sobelGy data w x y ^ 2

/-- The interior pixels visited by computeEdgeFeatures' loops:
`y` from 1 to `height - 2`, `x` from 1 to `width - 2`, step 1. -/
def interiorCoords (w h : ℕ) : List (ℕ × ℕ) :=
  ((List.range (h - 2)).map fun k => k + 1).flatMap fun y =>
    ((List.range (w - 2)).map fun k => k + 1).map fun x => (x, y)

/-- The `edges` array (as squared magnitudes). -/
def edgeSqList (w h : ℕ) (data : ℕ → ℕ) : List ℚ :=
  (interiorCoords w h).map fun c => edgeSqAt data w c.1 c.2

/-- `Math.max(...edges)` as a squared magnitude; all entries are squares, so
folding from 0 returns the greatest entry (or 0 for an empty interior, where
the source would yield `-Infinity` but also sample no pixels). -/
def maxEdgeSq (w h : ℕ) (data : ℕ → ℕ) : ℚ := (edgeSqList w h data).foldl max 0

/-- The histogram bin of one squared magnitude, `none` when the JavaScript
index is `NaN` (see the section comment). -/
def edgeBin (emaxSq eSq : ℚ) : Option ℕ :=
  if emaxSq = 0 then (if eSq = 0 then none else some 9)
  else some (min 9 (Nat.sqrt (⌊100 * eSq / emaxSq⌋).toNat))

/-- The `edges.forEach` accumulation into the 10-slot histogram. -/
def edgeCounts (w h : ℕ) (data : ℕ → ℕ) : ℕ → ℕ :=
  (edgeSqList w h data).foldl
    (fun acc e =>
      match edgeBin (maxEdgeSq w h data) e with
      | none => acc
      | some b => bumpAt acc b)
    fun _ => 0

def computeEdgeFeatures (w h : ℕ) (data : ℕ → ℕ) : List ℚ :=
  (List.range 10).map fun b =>
    (edgeCounts w h data b : ℚ) / ((edgeSqList w h data).length : ℚ)

/-! ## Concrete buffers used by counterexamples and witnesses -/

/-- A flat RGBA array given by an explicit list (0 past the end, like a
zero-filled canvas region). -/
def flatPixelList (l : List ℕ) : ℕ → ℕ := fun i => l.getD i 0

/-- A 3×3 buffer: the centre pixel has luminance 150, its right and lower
neighbours 75, the rest 0.  The single stride-5 sample (1,1) has edge
strength |150-75| + |150-75| = 150, so the sample mean is 150, while the
source's `avgEdgeStrength` is 150/(9/25) ≈ 416.7. -/
def crispCexPixels : ℕ → ℕ :=
  flatPixelList
    [0, 0, 0, 255, 0, 0, 0, 255, 0, 0, 0, 255,
     0, 0, 0, 255, 150, 150, 150, 255, 75, 75, 75, 255,
     0, 0, 0, 255, 75, 75, 75, 255, 0, 0, 0, 255]

/-- A uniform mid-gray buffer: every channel sample is 100. -/
def uniformPixels : ℕ → ℕ := fun _ => 100

/-! ## Theorems -/

/-- C9: detectScreenshot never fails — every failure path (image cannot be
loaded, no drawing context, analysis throws) resolves with the fixed fallback
verdict: not a screenshot, confidence 0, and an explanatory placeholder
reason, instead of propagating the error. -/
theorem detectScreenshot_error_fallback :
    detectScreenshot .loadFailed = ⟨false, 0, "Unable to load image"⟩ ∧
    detectScreenshot .noContext = ⟨false, 0, "Unable to analyze"⟩ ∧
    detectScreenshot .analysisThrew = ⟨false, 0, "Error in analysis"⟩ :=
  ⟨rfl, rfl, rfl⟩

/-- C5: a length mismatch is signalled by a sentinel, never an error — for
hash strings of unequal length `calculateHammingDistance` returns the
`Infinity` sentinel (modelled `none`), and for numeric vectors of unequal
length `cosineSimilarity` returns 0 (for every square-root function). -/
theorem lengthMismatch_sentinel :
    (∀ h1 h2 : String, h1.length ≠ h2.length → calculateHammingDistance h1 h2 = none) ∧
    (∀ (sqrtF : ℚ → ℚ) (v1 v2 : List ℚ), v1.length ≠ v2.length →
      cosineSimilarity sqrtF v1 v2 = 0) := by
  constructor
  · intro h1 h2 hne
    unfold calculateHammingDistance
    rw [if_pos hne]
  · intro f v1 v2 hne
    unfold cosineSimilarity
    rw [if_pos hne]

/-- C5 witness: the sentinel results at concrete mismatched inputs. -/
theorem lengthMismatch_sentinel_witness :
    calculateHammingDistance "a" "bb" = none ∧
    cosineSimilarity (fun x => x) [1] [1, 2] = 0 :=
  ⟨lengthMismatch_sentinel.1 "a" "bb" (by decide),
   lengthMismatch_sentinel.2 (fun x => x) [1] [1, 2] (by decide)⟩

/-- C6 (amended): for buffers at least 3×3, the crisp-edges signal adds
+0.15 exactly when the total of (|Δ right| + |Δ below|) over the
stride-5-sampled interior pixels divided by `width·height/25` exceeds 180 —
the divisor is `width·height/25`, not the number of sampled pixels. -/
theorem crispEdge_divisor (w h : ℕ) (data : ℕ → ℕ) (_hw : 3 ≤ w) (_hh : 3 ≤ h) :
    crispEdgeScore w h data = 3/20 ↔ 180 < avgEdgeStrength w h data := by
  unfold crispEdgeScore
  split_ifs with hc
  · simp [hc]
  · simp only [hc, iff_false]
    norm_num

/-- C6 witness: the amended statement applied at a concrete 3×3 buffer. -/
theorem crispEdge_divisor_witness :
    crispEdgeScore 3 3 (fun _ => 0) = 3/20 ↔ 180 < avgEdgeStrength 3 3 (fun _ => 0) :=
  crispEdge_divisor 3 3 (fun _ => 0) (by norm_num) (by norm_num)

lemma sampledCoords_33 : sampledCoords 3 3 = [(1, 1)] := rfl

lemma gray_cex_11 : grayAt crispCexPixels 3 1 1 = 150 := by
  norm_num [grayAt, show crispCexPixels 16 = 150 from rfl,
    show crispCexPixels 17 = 150 from rfl, show crispCexPixels 18 = 150 from rfl]

lemma gray_cex_21 : grayAt crispCexPixels 3 2 1 = 75 := by
  norm_num [grayAt, show crispCexPixels 20 = 75 from rfl,
    show crispCexPixels 21 = 75 from rfl, show crispCexPixels 22 = 75 from rfl]

lemma gray_cex_12 : grayAt crispCexPixels 3 1 2 = 75 := by
  norm_num [grayAt, show crispCexPixels 28 = 75 from rfl,
    show crispCexPixels 29 = 75 from rfl, show crispCexPixels 30 = 75 from rfl]

lemma totalEdge_cex : totalEdgeStrength 3 3 crispCexPixels = 150 := by
  rw [totalEdgeStrength, sampledCoords_33]
  simp [edgeStrengthAt, gray_cex_11, gray_cex_21, gray_cex_12]
  norm_num

/-- C6 counterexample: on a concrete 3×3 buffer the crisp-edges signal fires
(+0.15) although the mean edge strength over the sampled interior pixels is
150 ≤ 180 — the signal is not equivalent to "sample mean > 180". -/
theorem crispEdge_spec_counterexample :
    crispEdgeScore 3 3 crispCexPixels = 3/20 ∧ ¬(180 < specEdgeMean 3 3 crispCexPixels) := by
  constructor
  · rw [crispEdgeScore, if_pos]
    rw [avgEdgeStrength, totalEdge_cex]
    norm_num
  · rw [specEdgeMean, totalEdge_cex, sampledCoords_33]
    norm_num

/-- C10: for every pixel buffer and every outcome of the random block
sampling the accumulated detection score is at most 0.95, the returned
confidence equals the raw score (the `min(1, score)` clamp never binds),
and the two color-diversity signals are mutually exclusive (their joint
contribution is 0.25, 0.05 or 0, never 0.30). -/
theorem detectionScore_bound (w h : ℕ) (data : ℕ → ℕ) (rand : ℕ → ℕ × ℕ) :
    detectionScore w h data rand ≤ 19/20 ∧
    (detectScreenshot (.pixels w h data rand)).confidence = detectionScore w h data rand ∧
    (diversityScore w h data = 1/4 ∨ diversityScore w h data = 1/20 ∨
      diversityScore w h data = 0) := by
  have hres : 0 ≤ resolutionScore w h ∧ resolutionScore w h ≤ 1/5 := by
    rw [resolutionScore]; split_ifs <;> norm_num
  have hasp : 0 ≤ aspectScore w h ∧ aspectScore w h ≤ 3/20 := by
    rw [aspectScore]; split_ifs <;> norm_num
  have hdiv : 0 ≤ diversityScore w h data ∧ diversityScore w h data ≤ 1/4 := by
    rw [diversityScore]; split_ifs <;> norm_num
  have hcrisp : 0 ≤ crispEdgeScore w h data ∧ crispEdgeScore w h data ≤ 3/20 := by
    rw [crispEdgeScore]; split_ifs <;> norm_num
  have hsharp : 0 ≤ sharpScore w h data ∧ sharpScore w h data ≤ 1/10 := by
    rw [sharpScore]; split_ifs <;> norm_num
  have hblock : 0 ≤ blockinessScore w data rand ∧ blockinessScore w data rand ≤ 1/10 := by
    rw [blockinessScore]; split_ifs <;> norm_num
  have hscore : detectionScore w h data rand ≤ 19/20 := by
    rw [detectionScore]
    linarith [hres.1, hres.2, hasp.1, hasp.2, hdiv.1, hdiv.2, hcrisp.1, hcrisp.2,
      hsharp.1, hsharp.2, hblock.1, hblock.2]
  refine ⟨hscore, ?_, ?_⟩
  · show min 1 (detectionScore w h data rand) = detectionScore w h data rand
    exact min_eq_right (by linarith)
  · rw [diversityScore]; split_ifs <;> simp

lemma strLength_mk (l : List Char) : (String.mk l).length = l.length := rfl

lemma strToList_mk (l : List Char) : (String.mk l).toList = l := rfl

lemma foldl_base_bound (b : ℕ) (f : Char → ℕ) (hf : ∀ c, f c < b) :
    ∀ (l : List Char) (acc : ℕ),
      l.foldl (fun a c => b * a + f c) acc < (acc + 1) * b ^ l.length := by
  intro l
  induction l with
  | nil => intro acc; simp
  | cons c l ih =>
    intro acc
    have h1 := ih (b * acc + f c)
    have h2 : (b * acc + f c + 1) * b ^ l.length ≤ (acc + 1) * b ^ (c :: l).length := by
      have hc := hf c
      have hstep : b * acc + f c + 1 ≤ (acc + 1) * b := by nlinarith
      calc (b * acc + f c + 1) * b ^ l.length ≤ (acc + 1) * b * b ^ l.length :=
            Nat.mul_le_mul_right _ hstep
        _ = (acc + 1) * b ^ (c :: l).length := by rw [List.length_cons]; ring
    exact lt_of_lt_of_le h1 h2

lemma length_takeWhile_le' (p : Char → Bool) (l : List Char) :
    (l.takeWhile p).length ≤ l.length := by
  induction l with
  | nil => simp
  | cons c l ih =>
    rw [List.takeWhile]
    cases p c
    · simp
    · simp
      omega

lemma toHexCore_length_le (fuel : ℕ) :
    ∀ (n k : ℕ), 1 ≤ k → n < 16 ^ k → (toHexCore fuel n).length ≤ k := by
  induction fuel with
  | zero => intro n k _ _; simp [toHexCore]
  | succ fuel ih =>
    intro n k hk hn
    rw [toHexCore]
    split_ifs with h16
    · simpa using hk
    · match k, hk with
      | 1, _ => omega
      | k + 2, _ =>
        have hdiv : n / 16 < 16 ^ (k + 1) := by
          rw [Nat.div_lt_iff_lt_mul (by norm_num)]
          calc n < 16 ^ (k + 2) := hn
            _ = 16 ^ (k + 1) * 16 := by ring
        have := ih (n / 16) (k + 1) (by omega) hdiv
        simp only [List.length_append, List.length_cons, List.length_nil]
        omega

lemma hexChar_mem (d : ℕ) : hexChar d ∈ hexDigitChars := by
  rw [hexChar]
  rcases Nat.lt_or_ge d 16 with h | h
  · have hlen : d < hexDigitChars.length := by
      rw [show hexDigitChars.length = 16 from rfl]
      omega
    rw [List.getD_eq_getElem _ _ hlen]
    exact List.getElem_mem _
  · rw [List.getD_eq_default _ _ (by rw [show hexDigitChars.length = 16 from rfl]; omega)]
    decide

lemma toHexCore_subset (fuel : ℕ) : ∀ (n : ℕ), ∀ c ∈ toHexCore fuel n, c ∈ hexDigitChars := by
  induction fuel with
  | zero => intro n c hc; simp [toHexCore] at hc
  | succ fuel ih =>
    intro n c hc
    rw [toHexCore] at hc
    split_ifs at hc with h16
    · rw [List.mem_singleton] at hc
      exact hc ▸ hexChar_mem n
    · rcases List.mem_append.mp hc with h | h
      · exact ih _ c h
      · rw [List.mem_singleton] at h
        exact h ▸ hexChar_mem (n % 16)

/-- The format invariant, for any 64-character bit string. -/
lemma hexFormat_of_64bits (l : List Char) (hl : l.length = 64) :
    (String.mk (padStart 16 '0' (jsHexString (parseIntBin l)))).length = 16 ∧
    ∀ c ∈ (String.mk (padStart 16 '0' (jsHexString (parseIntBin l)))).toList,
      c ∈ hexDigitChars := by
  have hv : parseIntBin l < 16 ^ 16 := by
    rw [parseIntBin]
    have hlen : (l.takeWhile isBinDigitChar).length ≤ 64 := by
      have := length_takeWhile_le' isBinDigitChar l
      omega
    have hb := foldl_base_bound 2 (fun c => if c = '1' then 1 else 0)
      (by intro c; simp only []; split_ifs <;> omega) (l.takeWhile isBinDigitChar) 0
    calc (l.takeWhile isBinDigitChar).foldl (fun a c => 2 * a + if c = '1' then 1 else 0) 0
        < (0 + 1) * 2 ^ (l.takeWhile isBinDigitChar).length := hb
      _ ≤ 2 ^ 64 := by
          have := Nat.pow_le_pow_right (show 0 < 2 by norm_num) hlen
          omega
      _ ≤ 16 ^ 16 := by norm_num
  have hhexlen : (jsHexString (parseIntBin l)).length ≤ 16 :=
    toHexCore_length_le _ _ 16 (by norm_num) hv
  constructor
  · rw [strLength_mk, padStart, List.length_append, List.length_replicate]
    omega
  · intro c hc
    rw [strToList_mk, padStart] at hc
    rcases List.mem_append.mp hc with h | h
    · rw [List.eq_of_mem_replicate h]
      decide
    · exact toHexCore_subset _ _ c h

lemma dctCoeffList_length (c0 : ℚ) (cosA : ℕ → ℕ → ℚ) (g : List ℚ) (s : ℕ) :
    (dctCoeffList c0 cosA g s).length = 64 := by
  rw [dctCoeffList, show List.range 8 = [0, 1, 2, 3, 4, 5, 6, 7] from rfl]
  simp

lemma dctBitChars_length (c0 : ℚ) (cosA : ℕ → ℕ → ℚ) (g : List ℚ) (s : ℕ) :
    (dctBitChars c0 cosA g s).length = 64 := by
  rw [dctBitChars]
  simp only [List.length_map]
  exact dctCoeffList_length c0 cosA g s

/-- C1 -/
theorem computeHash_hex_format (c0 : ℚ) (cosA : ℕ → ℕ → ℚ) (data : ℕ → ℕ) :
    (generatePerceptualHash c0 cosA data).length = 16 ∧
    ∀ c ∈ (generatePerceptualHash c0 cosA data).toList, c ∈ hexDigitChars :=
  hexFormat_of_64bits (dctBitChars c0 cosA (grayscaleOfPixels data) 32)
    (dctBitChars_length c0 cosA (grayscaleOfPixels data) 32)

/-- C2 -/
theorem computeDCTHash_threshold_bits (c0 : ℚ) (cosA : ℕ → ℕ → ℚ)
    (grayscale : List ℚ) (size : ℕ) :
    (dctCoeffList c0 cosA grayscale size).length = 64 ∧
    (List.insertionSort (· ≤ ·) ((dctCoeffList c0 cosA grayscale size).drop 1)).length = 63 ∧
    (List.insertionSort (· ≤ ·) ((dctCoeffList c0 cosA grayscale size).drop 1)).Sorted (· ≤ ·) ∧
    (List.insertionSort (· ≤ ·) ((dctCoeffList c0 cosA grayscale size).drop 1)).Perm
      ((dctCoeffList c0 cosA grayscale size).drop 1) ∧
    dctBitChars c0 cosA grayscale size =
      (dctCoeffList c0 cosA grayscale size).map fun c =>
        if (List.insertionSort (· ≤ ·)
            ((dctCoeffList c0 cosA grayscale size).drop 1)).getD 32 0 < c
        then '1' else '0' := by
  have hlen := dctCoeffList_length c0 cosA grayscale size
  refine ⟨hlen, ?_, List.sorted_insertionSort _ _, List.perm_insertionSort _ _, ?_⟩
  · rw [List.length_insertionSort, List.length_drop, hlen]
  · rw [dctBitChars, hlen]

lemma hexDigitVal_lt (c : Char) : hexDigitVal c < 16 := by
  rw [hexDigitVal]
  split_ifs <;> omega

lemma strToList_length (s : String) : s.toList.length = s.length := rfl

lemma parseIntHex_lt (s : String) (hs : s.length ≤ 16) : parseIntHex s < 2 ^ 64 := by
  rw [parseIntHex]
  have hlen : (s.toList.takeWhile isHexDigitChar).length ≤ 16 := by
    have h1 := length_takeWhile_le' isHexDigitChar s.toList
    have h2 := strToList_length s
    omega
  have hb := foldl_base_bound 16 hexDigitVal hexDigitVal_lt (s.toList.takeWhile isHexDigitChar) 0
  calc (s.toList.takeWhile isHexDigitChar).foldl (fun a c => 16 * a + hexDigitVal c) 0
      < (0 + 1) * 16 ^ (s.toList.takeWhile isHexDigitChar).length := hb
    _ ≤ 16 ^ 16 := by
        have := Nat.pow_le_pow_right (show 0 < 16 by norm_num) hlen
        omega
    _ ≤ 2 ^ 64 := by norm_num

lemma toBinCore_length_le (fuel : ℕ) :
    ∀ (n k : ℕ), 1 ≤ k → n < 2 ^ k → (toBinCore fuel n).length ≤ k := by
  induction fuel with
  | zero => intro n k _ _; simp [toBinCore]
  | succ fuel ih =>
    intro n k hk hn
    rw [toBinCore]
    split_ifs with h2
    · simpa using hk
    · match k, hk with
      | 1, _ => omega
      | k + 2, _ =>
        have hdiv : n / 2 < 2 ^ (k + 1) := by
          rw [Nat.div_lt_iff_lt_mul (by norm_num)]
          calc n < 2 ^ (k + 2) := hn
            _ = 2 ^ (k + 1) * 2 := by ring
        have := ih (n / 2) (k + 1) (by omega) hdiv
        simp only [List.length_append, List.length_cons, List.length_nil]
        omega

lemma binPad_length (n : ℕ) (hn : n < 2 ^ 64) :
    (padStart 64 '0' (jsBinString n)).length = 64 := by
  have h := toBinCore_length_le (n + 1) n 64 (by norm_num) hn
  rw [padStart, List.length_append, List.length_replicate]
  rw [jsBinString] at *
  omega

/-- C4 -/
theorem hammingDistance_range (h1 h2 : String) (hl1 : h1.length = 16) (hl2 : h2.length = 16)
    (_hx1 : ∀ c ∈ h1.toList, isHexDigitChar c = true)
    (_hx2 : ∀ c ∈ h2.toList, isHexDigitChar c = true) :
    ∃ d : ℕ, calculateHammingDistance h1 h2 = some d ∧ d ≤ 64 := by
  rw [calculateHammingDistance, if_neg (by omega : ¬h1.length ≠ h2.length)]
  refine ⟨_, rfl, ?_⟩
  calc (List.range (padStart 64 '0' (jsBinString (parseIntHex h1))).length).countP
        (fun i => (padStart 64 '0' (jsBinString (parseIntHex h1))).getD i 'u'
          != (padStart 64 '0' (jsBinString (parseIntHex h2))).getD i 'u')
      ≤ (List.range (padStart 64 '0' (jsBinString (parseIntHex h1))).length).length :=
        List.countP_le_length _
    _ = 64 := by
        rw [List.length_range, binPad_length _ (parseIntHex_lt h1 (by omega))]

/-- C4 witness -/
theorem hammingDistance_range_witness :
    ∃ d : ℕ, calculateHammingDistance "0123456789abcdef" "fedcba9876543210" = some d ∧ d ≤ 64 :=
  hammingDistance_range "0123456789abcdef" "fedcba9876543210"
    (by decide) (by decide) (by decide) (by decide)

lemma colorStep_apply (acc : ℕ → ℕ) (t : ℕ × ℕ × ℕ) (j : ℕ) :
    colorStep acc t j = acc j + (if t.1 / 16 = j then 1 else 0)
      + (if 16 + t.2.1 / 16 = j then 1 else 0) + (if 32 + t.2.2 / 16 = j then 1 else 0) := by
  simp only [colorStep, bumpAt]
  split_ifs <;> omega

lemma colorFold_apply (ps : List (ℕ × ℕ × ℕ)) :
    ∀ (acc : ℕ → ℕ) (j : ℕ),
      ps.foldl colorStep acc j = acc j
        + ps.countP (fun t => decide (t.1 / 16 = j))
        + ps.countP (fun t => decide (16 + t.2.1 / 16 = j))
        + ps.countP (fun t => decide (32 + t.2.2 / 16 = j)) := by
  induction ps with
  | nil => intro acc j; simp
  | cons t ps ih =>
    intro acc j
    rw [List.foldl_cons, ih (colorStep acc t) j, colorStep_apply]
    rw [List.countP_cons, List.countP_cons, List.countP_cons]
    simp only [decide_eq_true_eq]
    split_ifs <;> omega

lemma sum_map_add {β : Type} (l : List β) (f g : β → ℕ) :
    (l.map fun x => f x + g x).sum = (l.map f).sum + (l.map g).sum := by
  induction l with
  | nil => simp
  | cons x l ih =>
    simp [ih]
    omega

lemma sum_indicator_range (n b : ℕ) (hb : b < n) :
    ((List.range n).map fun j => if b = j then (1 : ℕ) else 0).sum = 1 := by
  induction n with
  | zero => omega
  | succ n ih =>
    rw [List.range_succ, List.map_append, List.sum_append]
    rcases Nat.lt_or_ge b n with h | h
    · rw [ih h]
      simp [Nat.ne_of_lt h]
    · have hbn : b = n := by omega
      subst hbn
      have hz : ((List.range b).map fun j => if b = j then (1 : ℕ) else 0).sum = 0 := by
        apply List.sum_eq_zero
        intro x hx
        obtain ⟨j, hj, hxe⟩ := List.mem_map.mp hx
        rw [List.mem_range] at hj
        rw [← hxe, if_neg (by omega)]
      rw [hz]
      simp

/-- Each element lands in exactly one bin below `n`, so the per-bin counts
over `range n` sum to the list length. -/
lemma countP_partition {α : Type} (g : α → ℕ) (n : ℕ) :
    ∀ ps : List α, (∀ p ∈ ps, g p < n) →
      ((List.range n).map fun j => ps.countP fun p => decide (g p = j)).sum = ps.length := by
  intro ps
  induction ps with
  | nil => intro _; simp
  | cons p ps ih =>
    intro hg
    have h1 : ∀ j : ℕ, (p :: ps).countP (fun q => decide (g q = j))
        = ps.countP (fun q => decide (g q = j)) + (if g p = j then 1 else 0) := by
      intro j
      rw [List.countP_cons]
      simp
    simp only [h1]
    rw [sum_map_add, ih (fun q hq => hg q (List.mem_cons_of_mem p hq)),
      sum_indicator_range n (g p) (hg p (List.mem_cons_self p ps))]
    simp

lemma sum_map_div {β : Type} (l : List β) (f : β → ℚ) (t : ℚ) :
    (l.map fun x => f x / t).sum = (l.map f).sum / t := by
  induction l with
  | nil => simp
  | cons x l ih => simp [ih, div_add_div_same]

lemma pixelTriples_length (pixels : List ℕ) :
    (pixelTriples pixels).length = pixels.length / 4 := by
  rw [pixelTriples, List.length_map, List.length_range]

lemma pixelTriples_bounds (pixels : List ℕ) (n : ℕ) (hn : pixels.length = 4 * n)
    (hval : ∀ v ∈ pixels, v < 256) :
    ∀ t ∈ pixelTriples pixels, t.1 < 256 ∧ t.2.1 < 256 ∧ t.2.2 < 256 := by
  intro t ht
  obtain ⟨p, hp, rfl⟩ := List.mem_map.mp ht
  rw [List.mem_range] at hp
  have hp4 : 4 * p + 2 < pixels.length := by omega
  refine ⟨?_, ?_, ?_⟩
  · show pixels.getD (4 * p) 0 < 256
    rw [List.getD_eq_getElem _ _ (by omega)]
    exact hval _ (List.getElem_mem _)
  · show pixels.getD (4 * p + 1) 0 < 256
    rw [List.getD_eq_getElem _ _ (by omega)]
    exact hval _ (List.getElem_mem _)
  · show pixels.getD (4 * p + 2) 0 < 256
    rw [List.getD_eq_getElem _ _ (by omega)]
    exact hval _ (List.getElem_mem _)

/-- C7 -/
theorem colorHistogram_spec (pixels : List ℕ) (n : ℕ) (hn : pixels.length = 4 * n)
    (hpos : 0 < n) (hval : ∀ v ∈ pixels, v < 256) :
    computeColorHistogram pixels =
      ((List.range 16).map fun j =>
        (((pixelTriples pixels).countP fun t => decide (t.1 / 16 = j) : ℕ) : ℚ) / (n : ℚ))
      ++ ((List.range 16).map fun j =>
        (((pixelTriples pixels).countP fun t => decide (t.2.1 / 16 = j) : ℕ) : ℚ) / (n : ℚ))
      ++ ((List.range 16).map fun j =>
        (((pixelTriples pixels).countP fun t => decide (t.2.2 / 16 = j) : ℕ) : ℚ) / (n : ℚ)) ∧
    (computeColorHistogram pixels).length = 48 ∧
    (∀ v ∈ computeColorHistogram pixels, 0 ≤ v) ∧
    ((computeColorHistogram pixels).take 16).sum = 1 ∧
    (((computeColorHistogram pixels).drop 16).take 16).sum = 1 ∧
    ((computeColorHistogram pixels).drop 32).sum = 1 := by
  have hb := pixelTriples_bounds pixels n hn hval
  have htripn : (pixelTriples pixels).length = n := by
    rw [pixelTriples_length]
    omega
  have htot : ((pixels.length : ℕ) : ℚ) / 4 = (n : ℚ) := by
    rw [hn]
    push_cast
    exact mul_div_cancel_left₀ _ (by norm_num)
  have hmain : computeColorHistogram pixels =
      ((List.range 16).map fun j =>
        (((pixelTriples pixels).countP fun t => decide (t.1 / 16 = j) : ℕ) : ℚ) / (n : ℚ))
      ++ ((List.range 16).map fun j =>
        (((pixelTriples pixels).countP fun t => decide (t.2.1 / 16 = j) : ℕ) : ℚ) / (n : ℚ))
      ++ ((List.range 16).map fun j =>
        (((pixelTriples pixels).countP fun t => decide (t.2.2 / 16 = j) : ℕ) : ℚ) / (n : ℚ)) := by
    rw [computeColorHistogram, htot]
    rw [show List.range 48 = List.range 16 ++ (List.range 16).map (fun j => 16 + j)
      ++ (List.range 16).map (fun j => 32 + j) from rfl]
    rw [List.map_append, List.map_append, List.map_map, List.map_map]
    congr 1
    congr 1
    · apply List.map_congr_left
      intro j hj
      rw [List.mem_range] at hj
      rw [colorFold_apply]
      have hz2 : (pixelTriples pixels).countP (fun t => decide (16 + t.2.1 / 16 = j)) = 0 :=
        List.countP_eq_zero.mpr fun t _ => by
          simp only [decide_eq_true_eq]
          omega
      have hz3 : (pixelTriples pixels).countP (fun t => decide (32 + t.2.2 / 16 = j)) = 0 :=
        List.countP_eq_zero.mpr fun t _ => by
          simp only [decide_eq_true_eq]
          omega
      rw [hz2, hz3]
      norm_num
    · apply List.map_congr_left
      intro j hj
      rw [List.mem_range] at hj
      simp only [Function.comp_apply]
      rw [colorFold_apply]
      have hz1 : (pixelTriples pixels).countP (fun t => decide (t.1 / 16 = 16 + j)) = 0 :=
        List.countP_eq_zero.mpr fun t ht => by
          have hbt := (hb t ht).1
          simp only [decide_eq_true_eq]
          omega
      have hz3 : (pixelTriples pixels).countP (fun t => decide (32 + t.2.2 / 16 = 16 + j)) = 0 :=
        List.countP_eq_zero.mpr fun t _ => by
          simp only [decide_eq_true_eq]
          omega
      have hc2 : (pixelTriples pixels).countP (fun t => decide (16 + t.2.1 / 16 = 16 + j))
          = (pixelTriples pixels).countP (fun t => decide (t.2.1 / 16 = j)) :=
        List.countP_congr fun t _ => by
          simp only [decide_eq_true_eq]
          omega
      rw [hz1, hz3, hc2]
      norm_num
    · apply List.map_congr_left
      intro j hj
      rw [List.mem_range] at hj
      simp only [Function.comp_apply]
      rw [colorFold_apply]
      have hz1 : (pixelTriples pixels).countP (fun t => decide (t.1 / 16 = 32 + j)) = 0 :=
        List.countP_eq_zero.mpr fun t ht => by
          have hbt := (hb t ht).1
          simp only [decide_eq_true_eq]
          omega
      have hz2 : (pixelTriples pixels).countP (fun t => decide (16 + t.2.1 / 16 = 32 + j)) = 0 :=
        List.countP_eq_zero.mpr fun t ht => by
          have hbt := (hb t ht).2.1
          simp only [decide_eq_true_eq]
          omega
      have hc3 : (pixelTriples pixels).countP (fun t => decide (32 + t.2.2 / 16 = 32 + j))
          = (pixelTriples pixels).countP (fun t => decide (t.2.2 / 16 = j)) :=
        List.countP_congr fun t _ => by
          simp only [decide_eq_true_eq]
          omega
      rw [hz1, hz2, hc3]
      norm_num
  have hnq : (n : ℚ) ≠ 0 := by
    exact_mod_cast Nat.pos_iff_ne_zero.mp hpos
  have hseg : ∀ g : ℕ × ℕ × ℕ → ℕ, (∀ t ∈ pixelTriples pixels, g t < 16) →
      (((List.range 16).map fun j =>
        (((pixelTriples pixels).countP fun t => decide (g t = j) : ℕ) : ℚ) / (n : ℚ))).sum = 1 := by
    intro g hg
    rw [sum_map_div]
    rw [show ((List.range 16).map fun j =>
        (((pixelTriples pixels).countP fun t => decide (g t = j) : ℕ) : ℚ))
      = ((List.range 16).map fun j =>
        ((pixelTriples pixels).countP fun t => decide (g t = j))).map Nat.cast by
        rw [List.map_map]; rfl]
    rw [← Nat.cast_list_sum, countP_partition g 16 (pixelTriples pixels) hg, htripn]
    exact div_self hnq
  have hsum1 := hseg (fun t => t.1 / 16) (fun t ht => by
    show t.1 / 16 < 16
    have := (hb t ht).1
    omega)
  have hsum2 := hseg (fun t => t.2.1 / 16) (fun t ht => by
    show t.2.1 / 16 < 16
    have := (hb t ht).2.1
    omega)
  have hsum3 := hseg (fun t => t.2.2 / 16) (fun t ht => by
    show t.2.2 / 16 < 16
    have := (hb t ht).2.2
    omega)
  have hlenA : (((List.range 16).map fun j =>
      (((pixelTriples pixels).countP fun t => decide (t.1 / 16 = j) : ℕ) : ℚ) / (n : ℚ))).length
      = 16 := by
    rw [List.length_map, List.length_range]
  have hlenB : (((List.range 16).map fun j =>
      (((pixelTriples pixels).countP fun t => decide (t.2.1 / 16 = j) : ℕ) : ℚ) / (n : ℚ))).length
      = 16 := by
    rw [List.length_map, List.length_range]
  refine ⟨hmain, ?_, ?_, ?_, ?_, ?_⟩
  · rw [computeColorHistogram, List.length_map, List.length_range]
  · intro v hv
    rw [computeColorHistogram] at hv
    obtain ⟨j, _, rfl⟩ := List.mem_map.mp hv
    positivity
  · rw [hmain, List.append_assoc, List.take_left' hlenA]
    exact hsum1
  · rw [hmain, List.append_assoc, List.drop_left' hlenA, List.take_left' hlenB]
    exact hsum2
  · rw [hmain, List.drop_left' (by rw [List.length_append, hlenA, hlenB])]
    exact hsum3

/-- C7 witness: the histogram characterisation at a one-pixel black buffer. -/
theorem colorHistogram_spec_witness :
    computeColorHistogram [0, 0, 0, 255] =
      ((List.range 16).map fun j =>
        (((pixelTriples [0, 0, 0, 255]).countP fun t => decide (t.1 / 16 = j) : ℕ) : ℚ)
          / ((1 : ℕ) : ℚ))
      ++ ((List.range 16).map fun j =>
        (((pixelTriples [0, 0, 0, 255]).countP fun t => decide (t.2.1 / 16 = j) : ℕ) : ℚ)
          / ((1 : ℕ) : ℚ))
      ++ ((List.range 16).map fun j =>
        (((pixelTriples [0, 0, 0, 255]).countP fun t => decide (t.2.2 / 16 = j) : ℕ) : ℚ)
          / ((1 : ℕ) : ℚ)) ∧
    (computeColorHistogram [0, 0, 0, 255]).length = 48 ∧
    (∀ v ∈ computeColorHistogram [0, 0, 0, 255], 0 ≤ v) ∧
    ((computeColorHistogram [0, 0, 0, 255]).take 16).sum = 1 ∧
    (((computeColorHistogram [0, 0, 0, 255]).drop 16).take 16).sum = 1 ∧
    ((computeColorHistogram [0, 0, 0, 255]).drop 32).sum = 1 :=
  colorHistogram_spec [0, 0, 0, 255] 1 (by decide) (by decide) (by decide)

lemma edgeFold_apply (m : ℚ) (es : List ℚ) :
    ∀ (acc : ℕ → ℕ) (j : ℕ),
      (es.foldl (fun acc e =>
        match edgeBin m e with
        | none => acc
        | some b => bumpAt acc b) acc) j
      = acc j + es.countP fun e => edgeBin m e == some j := by
  induction es with
  | nil => intro acc j; simp
  | cons e es ih =>
    intro acc j
    rw [List.foldl_cons, ih, List.countP_cons]
    cases heq : edgeBin m e with
    | none => simp [heq]
    | some b =>
      simp only [heq, bumpAt]
      by_cases hbj : j = b
      · subst hbj
        simp
        omega
      · have hbj2 : (b == j) = false := by
          simp
          omega
        simp [hbj, hbj2]

lemma countP_opt_partition {α : Type} (g : α → Option ℕ) (n : ℕ) :
    ∀ ps : List α, (∀ p ∈ ps, ∀ b, g p = some b → b < n) →
      ((List.range n).map fun j => ps.countP fun p => g p == some j).sum
        = ps.countP fun p => (g p).isSome := by
  intro ps
  induction ps with
  | nil => intro _; simp
  | cons p ps ih =>
    intro hg
    have h1 : ∀ j : ℕ, (p :: ps).countP (fun q => g q == some j)
        = ps.countP (fun q => g q == some j) + (if (g p == some j) = true then 1 else 0) := by
      intro j
      rw [List.countP_cons]
    simp only [h1]
    rw [sum_map_add, ih (fun q hq => hg q (List.mem_cons_of_mem p hq)), List.countP_cons]
    cases hgp : g p with
    | none =>
      have hz : ((List.range n).map fun j =>
          if ((none : Option ℕ) == some j) = true then 1 else 0).sum = 0 := by
        apply List.sum_eq_zero
        intro x hx
        obtain ⟨j, _, hxe⟩ := List.mem_map.mp hx
        rw [← hxe]
        simp
      rw [hz]
      simp
    | some b =>
      have hbn : b < n := hg p (List.mem_cons_self p ps) b hgp
      have hi : ((List.range n).map fun j =>
          if ((some b : Option ℕ) == some j) = true then 1 else 0).sum
          = ((List.range n).map fun j => if b = j then 1 else 0).sum := by
        congr 1
        apply List.map_congr_left
        intro j _
        simp
      rw [hi, sum_indicator_range n b hbn]
      simp

lemma le_foldl_max_init (l : List ℚ) : ∀ c : ℚ, c ≤ l.foldl max c := by
  induction l with
  | nil => intro c; simp
  | cons a l ih =>
    intro c
    rw [List.foldl_cons]
    exact le_trans (le_max_left c a) (ih (max c a))

lemma mem_le_foldl_max (l : List ℚ) : ∀ (c : ℚ), ∀ e ∈ l, e ≤ l.foldl max c := by
  induction l with
  | nil => intro c e he; simp at he
  | cons a l ih =>
    intro c e he
    rcases List.mem_cons.mp he with rfl | he2
    · rw [List.foldl_cons]
      exact le_trans (le_max_right c e) (le_foldl_max_init l (max c e))
    · rw [List.foldl_cons]
      exact ih (max c a) e he2

lemma edgeSqList_nonneg (w h : ℕ) (data : ℕ → ℕ) : ∀ e ∈ edgeSqList w h data, 0 ≤ e := by
  intro e he
  obtain ⟨c, _, rfl⟩ := List.mem_map.mp he
  rw [edgeSqAt]
  positivity

lemma length_prod_flatMap {α β γ : Type} (f : α → β → γ) (l2 : List β) :
    ∀ l1 : List α, (l1.flatMap fun y => l2.map fun x => f y x).length
      = l1.length * l2.length := by
  intro l1
  induction l1 with
  | nil => simp
  | cons a l1 ih =>
    rw [List.flatMap_cons, List.length_append, List.length_map, ih, List.length_cons]
    ring

lemma edgeSqList_length (w h : ℕ) (data : ℕ → ℕ) :
    (edgeSqList w h data).length = (h - 2) * (w - 2) := by
  rw [edgeSqList, List.length_map, interiorCoords, length_prod_flatMap]
  simp

lemma edgeBin_lt_ten (m e : ℚ) : ∀ b : ℕ, edgeBin m e = some b → b < 10 := by
  intro b hb
  rw [edgeBin] at hb
  split_ifs at hb with h1 h2 <;> simp at hb <;> omega

lemma edgeCounts_eq_countP (w h : ℕ) (data : ℕ → ℕ) (j : ℕ) :
    edgeCounts w h data j
      = (edgeSqList w h data).countP fun e => edgeBin (maxEdgeSq w h data) e == some j := by
  have hfold := edgeFold_apply (maxEdgeSq w h data) (edgeSqList w h data) (fun _ => 0) j
  simpa using hfold

lemma foldl_max_zero (l : List ℚ) (h : ∀ e ∈ l, e = 0) : l.foldl max 0 = 0 := by
  induction l with
  | nil => simp
  | cons a l ih =>
    rw [List.foldl_cons, h a (List.mem_cons_self a l), max_self]
    exact ih fun e he => h e (List.mem_cons_of_mem a he)

/-- C8 (amended) -/
theorem edgeHistogram_partition (data : ℕ → ℕ) :
    (computeEdgeFeatures 256 256 data).length = 10 ∧
    (∀ v ∈ computeEdgeFeatures 256 256 data, 0 ≤ v) ∧
    (computeEdgeFeatures 256 256 data).sum
      = (if maxEdgeSq 256 256 data = 0 then 0 else 1) := by
  have hlen : (edgeSqList 256 256 data).length = 64516 := by
    rw [edgeSqList_length]
  refine ⟨?_, ?_, ?_⟩
  · rw [computeEdgeFeatures, List.length_map, List.length_range]
  · intro v hv
    rw [computeEdgeFeatures] at hv
    obtain ⟨b, _, rfl⟩ := List.mem_map.mp hv
    exact div_nonneg (Nat.cast_nonneg _) (Nat.cast_nonneg _)
  · by_cases hm : maxEdgeSq 256 256 data = 0
    · rw [if_pos hm]
      have hall : ∀ e ∈ edgeSqList 256 256 data, e = 0 := by
        intro e he
        have h1 := mem_le_foldl_max (edgeSqList 256 256 data) 0 e he
        rw [show (edgeSqList 256 256 data).foldl max 0 = maxEdgeSq 256 256 data from rfl,
          hm] at h1
        exact le_antisymm h1 (edgeSqList_nonneg 256 256 data e he)
      apply List.sum_eq_zero
      intro x hx
      rw [computeEdgeFeatures] at hx
      obtain ⟨b, _, rfl⟩ := List.mem_map.mp hx
      rw [edgeCounts_eq_countP]
      rw [List.countP_eq_zero.mpr]
      · norm_num
      · intro e he
        rw [hall e he, hm]
        simp [edgeBin]
    · rw [if_neg hm]
      rw [computeEdgeFeatures]
      have hcong : (List.range 10).map (fun b =>
            (edgeCounts 256 256 data b : ℚ) / ((edgeSqList 256 256 data).length : ℚ))
          = (List.range 10).map (fun b =>
            (((edgeSqList 256 256 data).countP fun e =>
              edgeBin (maxEdgeSq 256 256 data) e == some b : ℕ) : ℚ)
              / ((edgeSqList 256 256 data).length : ℚ)) := by
        apply List.map_congr_left
        intro b _
        rw [edgeCounts_eq_countP]
      rw [hcong, sum_map_div]
      rw [show ((List.range 10).map fun b =>
          (((edgeSqList 256 256 data).countP fun e =>
            edgeBin (maxEdgeSq 256 256 data) e == some b : ℕ) : ℚ))
        = ((List.range 10).map fun b =>
          ((edgeSqList 256 256 data).countP fun e =>
            edgeBin (maxEdgeSq 256 256 data) e == some b)).map Nat.cast by
          rw [List.map_map]; rfl]
      rw [← Nat.cast_list_sum]
      rw [countP_opt_partition (fun e => edgeBin (maxEdgeSq 256 256 data) e) 10
        (edgeSqList 256 256 data) (fun e _ b hb => edgeBin_lt_ten _ _ b hb)]
      rw [List.countP_eq_length.mpr]
      · rw [hlen]
        norm_num
      · intro e _
        rw [edgeBin, if_neg hm]
        simp

lemma grayAt_uniform (w x y : ℕ) : grayAt uniformPixels w x y = 100 := by
  simp only [grayAt, uniformPixels]
  norm_num

lemma sobelGx_uniform (x y : ℕ) : sobelGx uniformPixels 256 x y = 0 := by
  rw [sobelGx, show List.range 3 = [0, 1, 2] from rfl]
  simp only [List.flatMap_cons, List.flatMap_nil, List.map_cons, List.map_nil,
    List.append_nil, List.sum_append, List.sum_cons, List.sum_nil, grayAt_uniform,
    show sobelXKernel.getD (0 * 3 + 0) 0 = -1 from rfl,
    show sobelXKernel.getD (0 * 3 + 1) 0 = 0 from rfl,
    show sobelXKernel.getD (0 * 3 + 2) 0 = 1 from rfl,
    show sobelXKernel.getD (1 * 3 + 0) 0 = -2 from rfl,
    show sobelXKernel.getD (1 * 3 + 1) 0 = 0 from rfl,
    show sobelXKernel.getD (1 * 3 + 2) 0 = 2 from rfl,
    show sobelXKernel.getD (2 * 3 + 0) 0 = -1 from rfl,
    show sobelXKernel.getD (2 * 3 + 1) 0 = 0 from rfl,
    show sobelXKernel.getD (2 * 3 + 2) 0 = 1 from rfl]
  norm_num

lemma sobelGy_uniform (x y : ℕ) : sobelGy uniformPixels 256 x y = 0 := by
  rw [sobelGy, show List.range 3 = [0, 1, 2] from rfl]
  simp only [List.flatMap_cons, List.flatMap_nil, List.map_cons, List.map_nil,
    List.append_nil, List.sum_append, List.sum_cons, List.sum_nil, grayAt_uniform,
    show sobelYKernel.getD (0 * 3 + 0) 0 = -1 from rfl,
    show sobelYKernel.getD (0 * 3 + 1) 0 = -2 from rfl,
    show sobelYKernel.getD (0 * 3 + 2) 0 = -1 from rfl,
    show sobelYKernel.getD (1 * 3 + 0) 0 = 0 from rfl,
    show sobelYKernel.getD (1 * 3 + 1) 0 = 0 from rfl,
    show sobelYKernel.getD (1 * 3 + 2) 0 = 0 from rfl,
    show sobelYKernel.getD (2 * 3 + 0) 0 = 1 from rfl,
    show sobelYKernel.getD (2 * 3 + 1) 0 = 2 from rfl,
    show sobelYKernel.getD (2 * 3 + 2) 0 = 1 from rfl]
  norm_num

lemma edgeSq_uniform : ∀ e ∈ edgeSqList 256 256 uniformPixels, e = 0 := by
  intro e he
  obtain ⟨c, _, rfl⟩ := List.mem_map.mp he
  rw [edgeSqAt, sobelGx_uniform, sobelGy_uniform]
  norm_num

lemma maxEdgeSq_uniform : maxEdgeSq 256 256 uniformPixels = 0 :=
  foldl_max_zero _ edgeSq_uniform

/-- C8 counterexample -/
theorem edgeHistogram_uniform_counterexample :
    computeEdgeFeatures 256 256 uniformPixels = [0, 0, 0, 0, 0, 0, 0, 0, 0, 0] ∧
    (computeEdgeFeatures 256 256 uniformPixels).sum = 0 ∧
    (computeEdgeFeatures 256 256 uniformPixels).sum ≠ 1 := by
  have hcounts : ∀ j, edgeCounts 256 256 uniformPixels j = 0 := by
    intro j
    rw [edgeCounts_eq_countP]
    apply List.countP_eq_zero.mpr
    intro e he
    rw [edgeSq_uniform e he, maxEdgeSq_uniform]
    simp [edgeBin]
  have hmain : computeEdgeFeatures 256 256 uniformPixels = [0, 0, 0, 0, 0, 0, 0, 0, 0, 0] := by
    rw [computeEdgeFeatures, show List.range 10 = [0, 1, 2, 3, 4, 5, 6, 7, 8, 9] from rfl]
    simp [hcounts]
  refine ⟨hmain, ?_, ?_⟩
  · rw [hmain]
    norm_num
  · rw [hmain]
    norm_num

lemma mergeClosest_none_right (acc : Option MatchResult) : mergeClosest acc none = acc := by
  cases acc <;> rfl

lemma considerArtwork_eq (q : String) (acc : Option MatchResult) (a : ArtworkRecord) :
    considerArtwork q acc a = mergeClosest acc (candidateFor q a) := by
  cases hh : a.perceptual_hash with
  | none =>
    simp only [considerArtwork, candidateFor, hh]
    exact (mergeClosest_none_right acc).symm
  | some hsh =>
    simp only [considerArtwork, candidateFor, hh]
    split_ifs with hle
    · cases acc with
      | none => rfl
      | some m => rfl
    · cases acc with
      | none => rfl
      | some m => rfl

lemma distLt_trans (a b c : Option ℕ) (h1 : distLt a b = true) (h2 : distLt b c = true) :
    distLt a c = true := by
  cases a <;> cases b <;> cases c <;> simp_all [distLt]
  omega

lemma distLt_neg_trans (a b c : Option ℕ) (h1 : distLt a b = false) (h2 : distLt b c = false) :
    distLt a c = false := by
  cases a <;> cases b <;> cases c <;> simp_all [distLt]
  omega

lemma mergeClosest_some_some (m m2 : MatchResult) :
    mergeClosest (some m) (some m2)
      = if distLt m2.distance m.distance then some m2 else some m := rfl

lemma mergeClosest_assoc (x y z : Option MatchResult) :
    mergeClosest (mergeClosest x y) z = mergeClosest x (mergeClosest y z) := by
  cases x with
  | none => rfl
  | some mx =>
    cases y with
    | none => rfl
    | some my =>
      cases z with
      | none => rw [mergeClosest_none_right, mergeClosest_none_right]
      | some mz =>
        by_cases h1 : distLt my.distance mx.distance = true
        · rw [mergeClosest_some_some mx my, if_pos h1]
          by_cases h2 : distLt mz.distance my.distance = true
          · rw [mergeClosest_some_some my mz, if_pos h2, mergeClosest_some_some mx mz,
              if_pos (distLt_trans _ _ _ h2 h1)]
          · rw [mergeClosest_some_some my mz, if_neg h2, mergeClosest_some_some mx my,
              if_pos h1]
        · rw [mergeClosest_some_some mx my, if_neg h1]
          by_cases h2 : distLt mz.distance my.distance = true
          · rw [mergeClosest_some_some my mz, if_pos h2]
          · rw [mergeClosest_some_some my mz, if_neg h2, mergeClosest_some_some mx my,
              if_neg h1]
            have h3 : distLt mz.distance mx.distance = false :=
              distLt_neg_trans _ _ _ (Bool.eq_false_iff.mpr h2) (Bool.eq_false_iff.mpr h1)
            rw [mergeClosest_some_some mx mz, if_neg (by rw [h3]; exact Bool.false_ne_true)]

lemma foldl_consider_eq (q : String) :
    ∀ (l : List ArtworkRecord) (acc : Option MatchResult),
      l.foldl (considerArtwork q) acc = mergeClosest acc (bestOf q l) := by
  intro l
  induction l with
  | nil => intro acc; rw [List.foldl_nil, bestOf, mergeClosest_none_right]
  | cons a l ih =>
    intro acc
    rw [List.foldl_cons, ih, considerArtwork_eq, mergeClosest_assoc, bestOf]

lemma findSimilarArtwork_eq_bestOf (q : String) (l : List ArtworkRecord) :
    findSimilarArtwork q l = bestOf q l := by
  rw [findSimilarArtwork, foldl_consider_eq]
  rfl

lemma distLe20 (d : Option ℕ) (h : distLe d (some 20) = true) : ∃ n, d = some n ∧ n ≤ 20 := by
  cases d with
  | none => simp [distLe] at h
  | some n =>
    refine ⟨n, rfl, ?_⟩
    simpa [distLe] using h

lemma candidateFor_none (q : String) (a : ArtworkRecord) (h : candidateFor q a = none) :
    ∀ hsh, a.perceptual_hash = some hsh →
      distLe (calculateHammingDistance q hsh) (some 20) = false := by
  intro hsh hh
  simp only [candidateFor, hh] at h
  split_ifs at h with hle
  exact Bool.eq_false_iff.mpr hle

lemma candidateFor_some (q : String) (a : ArtworkRecord) (m : MatchResult)
    (h : candidateFor q a = some m) :
    ∃ hsh n, m.artwork = a ∧ a.perceptual_hash = some hsh ∧
      calculateHammingDistance q hsh = some n ∧ n ≤ 20 ∧
      m.distance = some n ∧ m.confidence = max 0 (min 1 (1 - (n : ℚ) / 64)) := by
  cases hh : a.perceptual_hash with
  | none => simp [candidateFor, hh] at h
  | some hsh =>
    simp only [candidateFor, hh] at h
    split_ifs at h with hle
    obtain ⟨n, hdn, hn20⟩ := distLe20 _ hle
    have hm := (Option.some.injEq _ _).mp h
    refine ⟨hsh, n, ?_, rfl, hdn, hn20, ?_, ?_⟩
    · rw [← hm]
    · rw [← hm]
      exact hdn
    · rw [← hm]
      show calculateConfidence (calculateHammingDistance q hsh)
        = max 0 (min 1 (1 - (n : ℚ) / 64))
      rw [hdn]
      rfl

lemma mergeClosest_eq_none (x y : Option MatchResult) :
    mergeClosest x y = none ↔ x = none ∧ y = none := by
  cases x <;> cases y <;> simp [mergeClosest]
  split_ifs <;> simp

lemma bestOf_none_valid (q : String) :
    ∀ l : List ArtworkRecord, bestOf q l = none →
      ∀ a ∈ l, ∀ hsh, a.perceptual_hash = some hsh →
        ∀ n, calculateHammingDistance q hsh = some n → ¬(n ≤ 20) := by
  intro l
  induction l with
  | nil => intro _ a ha; simp at ha
  | cons b rest ih =>
    intro hnone a ha hsh hh n hd hn20
    rw [bestOf] at hnone
    obtain ⟨hcb, hbr⟩ := (mergeClosest_eq_none _ _).mp hnone
    rcases List.mem_cons.mp ha with rfl | ha2
    · have := candidateFor_none q a hcb hsh hh
      rw [hd] at this
      simp [distLe] at this
      omega
    · exact ih hbr a ha2 hsh hh n hd hn20

lemma bestOf_char (q : String) :
    ∀ (l : List ArtworkRecord) (m : MatchResult), bestOf q l = some m →
      ∃ pre post hsh n, l = pre ++ m.artwork :: post ∧
        m.artwork.perceptual_hash = some hsh ∧
        calculateHammingDistance q hsh = some n ∧ n ≤ 20 ∧
        m.distance = some n ∧
        m.confidence = max 0 (min 1 (1 - (n : ℚ) / 64)) ∧
        (∀ a ∈ l, ∀ h2 n2, a.perceptual_hash = some h2 →
          calculateHammingDistance q h2 = some n2 → n ≤ n2) ∧
        (∀ a ∈ pre, ∀ h2 n2, a.perceptual_hash = some h2 →
          calculateHammingDistance q h2 = some n2 → n < n2) := by
  intro l
  induction l with
  | nil => intro m hm; simp [bestOf] at hm
  | cons b rest ih =>
    intro m hm
    rw [bestOf] at hm
    cases hcb : candidateFor q b with
    | none =>
      rw [hcb] at hm
      have hm2 : bestOf q rest = some m := hm
      obtain ⟨pre, post, hsh, n, hsplit, hhash, hdist, hn20, hmd, hconf, hglobal, hpre⟩ :=
        ih m hm2
      have hbno := candidateFor_none q b hcb
      have hb20 : ∀ h2 n2, b.perceptual_hash = some h2 →
          calculateHammingDistance q h2 = some n2 → 20 < n2 := by
        intro h2 n2 hbh hbd
        have hf := hbno h2 hbh
        rw [hbd] at hf
        simp [distLe] at hf
        omega
      refine ⟨b :: pre, post, hsh, n, by rw [hsplit]; rfl, hhash, hdist, hn20, hmd, hconf,
        ?_, ?_⟩
      · intro a ha h2 n2 hah had
        rcases List.mem_cons.mp ha with rfl | ha2
        · have := hb20 h2 n2 hah had
          omega
        · exact hglobal a ha2 h2 n2 hah had
      · intro a ha h2 n2 hah had
        rcases List.mem_cons.mp ha with rfl | ha2
        · have := hb20 h2 n2 hah had
          omega
        · exact hpre a ha2 h2 n2 hah had
    | some mc =>
      rw [hcb] at hm
      obtain ⟨hsh_c, n_c, hmca, hhash_c, hdist_c, hn20_c, hmd_c, hconf_c⟩ :=
        candidateFor_some q b mc hcb
      cases hbr : bestOf q rest with
      | none =>
        rw [hbr] at hm
        have hmmc : mc = m := by
          simpa [mergeClosest] using hm
        subst hmmc
        have hrest := bestOf_none_valid q rest hbr
        refine ⟨[], rest, hsh_c, n_c, by rw [List.nil_append, hmca], ?_, hdist_c, hn20_c,
          hmd_c, hconf_c, ?_, by simp⟩
        · rw [hmca]
          exact hhash_c
        · intro a ha h2 n2 hah had
          rcases List.mem_cons.mp ha with rfl | ha2
          · rw [hhash_c] at hah
            have hh2 := Option.some.inj hah
            rw [← hh2, hdist_c] at had
            have := Option.some.inj had
            omega
          · have := hrest a ha2 h2 hah n2 had
            omega
      | some mr =>
        rw [hbr] at hm
        rw [mergeClosest_some_some] at hm
        obtain ⟨pre, post, hsh_r, n_r, hsplit, hhash_r, hdist_r, hn20_r, hmd_r, hconf_r,
          hglobal_r, hpre_r⟩ := ih mr hbr
        rw [hmd_r, hmd_c] at hm
        by_cases hlt : n_r < n_c
        · rw [if_pos (by simp [distLt]; exact hlt)] at hm
          have hmmr : mr = m := Option.some.inj hm
          subst hmmr
          refine ⟨b :: pre, post, hsh_r, n_r, by rw [hsplit]; rfl, hhash_r, hdist_r,
            hn20_r, hmd_r, hconf_r, ?_, ?_⟩
          · intro a ha h2 n2 hah had
            rcases List.mem_cons.mp ha with rfl | ha2
            · rw [hhash_c] at hah
              have hh2 := Option.some.inj hah
              rw [← hh2, hdist_c] at had
              have := Option.some.inj had
              omega
            · exact hglobal_r a ha2 h2 n2 hah had
          · intro a ha h2 n2 hah had
            rcases List.mem_cons.mp ha with rfl | ha2
            · rw [hhash_c] at hah
              have hh2 := Option.some.inj hah
              rw [← hh2, hdist_c] at had
              have := Option.some.inj had
              omega
            · exact hpre_r a ha2 h2 n2 hah had
        · rw [if_neg (by simp [distLt]; omega)] at hm
          have hmmc : mc = m := Option.some.inj hm
          subst hmmc
          refine ⟨[], rest, hsh_c, n_c, by rw [List.nil_append, hmca], ?_, hdist_c,
            hn20_c, hmd_c, hconf_c, ?_, by simp⟩
          · rw [hmca]
            exact hhash_c
          · intro a ha h2 n2 hah had
            rcases List.mem_cons.mp ha with rfl | ha2
            · rw [hhash_c] at hah
              have hh2 := Option.some.inj hah
              rw [← hh2, hdist_c] at had
              have := Option.some.inj had
              omega
            · have := hglobal_r a ha2 h2 n2 hah had
              omega

/-- C3 -/
theorem findSimilarArtwork_characterization (q : String) (l : List ArtworkRecord) :
    (findSimilarArtwork q l = none →
      ∀ a ∈ l, ∀ hsh, a.perceptual_hash = some hsh →
        ∀ n, calculateHammingDistance q hsh = some n → ¬(n ≤ 20)) ∧
    (∀ m : MatchResult, findSimilarArtwork q l = some m →
      ∃ pre post hsh n, l = pre ++ m.artwork :: post ∧
        m.artwork.perceptual_hash = some hsh ∧
        calculateHammingDistance q hsh = some n ∧ n ≤ 20 ∧
        m.distance = some n ∧
        m.confidence = max 0 (min 1 (1 - (n : ℚ) / 64)) ∧
        (∀ a ∈ l, ∀ h2 n2, a.perceptual_hash = some h2 →
          calculateHammingDistance q h2 = some n2 → n ≤ n2) ∧
        (∀ a ∈ pre, ∀ h2 n2, a.perceptual_hash = some h2 →
          calculateHammingDistance q h2 = some n2 → n < n2)) := by
  constructor
  · intro hnone
    rw [findSimilarArtwork_eq_bestOf] at hnone
    exact bestOf_none_valid q l hnone
  · intro m hm
    rw [findSimilarArtwork_eq_bestOf] at hm
    exact bestOf_char q l m hm
